import Mathlib

/-!
Verification of the simple-store repository: a shallow embedding of
`QueryResultStore` (src/src/query-result-store.ts), the utility functions
`serializeObject` and `removeOldestEntry` (src/unnamed/part_001), and the
spec-documented `StateSubject` / `SimpleStore.setState` behaviour.

JavaScript values appearing in queries/results are modelled by `JsVal`;
JavaScript objects (records) by association lists `JsRecord`; the ES `Map`
(which iterates in insertion order, with `set` on an existing key updating
in place) by association lists with the operations `mapSet`, `mapGet`,
`mapHas`, `mapDelete` below.
-/

namespace SimpleStoreModel

/-- A JavaScript value as used in query / result records. -/
inductive JsVal where
  | undef : JsVal
  | null : JsVal
  | bool (b : Bool) : JsVal
  | num (n : Int) : JsVal
  | str (s : String) : JsVal
  | arr (elems : List JsVal) : JsVal
deriving Repr

mutual
/-- Structural (deep) equality test on `JsVal`. -/
def beqVal : JsVal → JsVal → Bool
  | .undef, .undef => true
  | .null, .null => true
  | .bool a, .bool b => a == b
  | .num a, .num b => a == b
  | .str a, .str b => a == b
  | .arr a, .arr b => beqValList a b
  | _, _ => false

/-- Structural equality on lists of `JsVal`. -/
def beqValList : List JsVal → List JsVal → Bool
  | [], [] => true
  | x :: xs, y :: ys => beqVal x y && beqValList xs ys
  | _, _ => false
end

mutual
theorem beqVal_iff : ∀ a b : JsVal, beqVal a b = true ↔ a = b
  | .undef, .undef => by simp [beqVal]
  | .null, .null => by simp [beqVal]
  | .bool a, .bool b => by simp [beqVal]
  | .num a, .num b => by simp [beqVal]
  | .str a, .str b => by simp [beqVal]
  | .arr a, .arr b => by simp [beqVal, beqValList_iff a b]
  | .undef, .null | .undef, .bool _ | .undef, .num _ | .undef, .str _ | .undef, .arr _
  | .null, .undef | .null, .bool _ | .null, .num _ | .null, .str _ | .null, .arr _
  | .bool _, .undef | .bool _, .null | .bool _, .num _ | .bool _, .str _ | .bool _, .arr _
  | .num _, .undef | .num _, .null | .num _, .bool _ | .num _, .str _ | .num _, .arr _
  | .str _, .undef | .str _, .null | .str _, .bool _ | .str _, .num _ | .str _, .arr _
  | .arr _, .undef | .arr _, .null | .arr _, .bool _ | .arr _, .num _ | .arr _, .str _ => by
    simp [beqVal]

theorem beqValList_iff : ∀ a b : List JsVal, beqValList a b = true ↔ a = b
  | [], [] => by simp [beqValList]
  | [], _ :: _ => by simp [beqValList]
  | _ :: _, [] => by simp [beqValList]
  | x :: xs, y :: ys => by
    simp [beqValList, beqVal_iff x y, beqValList_iff xs ys]
end

instance : DecidableEq JsVal := fun a b =>
  decidable_of_iff (beqVal a b = true) (beqVal_iff a b)

/-- A JavaScript object: field names with values, in insertion order. -/
abbrev JsRecord := List (String × JsVal)

/-- Property read `obj[k]`: first binding of `k`, if any. -/
def lookup (r : JsRecord) (k : String) : Option JsVal :=
  (r.find? (fun p => p.1 == k)).map Prod.snd

/-- `k in obj`. -/
def hasField (r : JsRecord) (k : String) : Bool :=
  r.any (fun p => p.1 == k)

mutual
/-- The external `serialize-javascript` primitive with `isJSON: true`
(JSON-faithful canonical serialization), on a single value. -/
def serializeVal : JsVal → String
  | .undef => "undefined"
  | .null => "null"
  | .bool true => "true"
  | .bool false => "false"
  | .num n => toString n
  | .str s => "\"" ++ s ++ "\""
  | .arr xs => "[" ++ serializeList xs ++ "]"

/-- Serialization of array elements, comma separated. -/
def serializeList : List JsVal → String
  | [] => ""
  | [x] => serializeVal x
  | x :: y :: xs => serializeVal x ++ "," ++ serializeList (y :: xs)
end

/-- Serialization of an object with its fields in the given order. -/
def serializeRecord (r : JsRecord) : String :=
  "\x7b" ++ String.intercalate ","
    (r.map (fun p => "\"" ++ p.1 ++ "\":" ++ serializeVal p.2)) ++ "\x7d"

/-- `serializeObject` from src/unnamed/part_001: drops fields whose value is
`undefined` (`omitBy`), optionally sorts the remaining field names
lexicographically rebuilding the record in sorted key order, then serializes. -/
def serializeObject (query : JsRecord) (sortKeys : Bool) : String :=
  let filtered := query.filter (fun p => p.2 ≠ JsVal.undef)
  if !sortKeys then
    serializeRecord filtered
  else
    let sorted :=
      (List.insertionSort (fun a b => a ≤ b) (filtered.map Prod.fst)).filterMap
        (fun k => (lookup filtered k).map (fun v => (k, v)))
    serializeRecord sorted

/-! ### ES `Map` model

A JavaScript `Map` iterates entries in insertion order; `set` on a key that
is already present updates the value in place without moving the entry;
`delete` removes the entry with the given key. Keys are JavaScript values,
so they may in particular be `undefined`. We model a `Map` whose values
have type `V` as a list of key/value pairs in insertion order. -/

/-- An ES `Map` with `JsVal` keys, entries in insertion order. -/
abbrev JsMap (V : Type) := List (JsVal × V)

/-- `map.get(k)` (also used for `map.has(k)` via `isSome`). -/
def mapGet {V : Type} (m : JsMap V) (k : JsVal) : Option V :=
  (m.find? (fun p => p.1 = k)).map Prod.snd

/-- `map.has(k)`. -/
def mapHas {V : Type} (m : JsMap V) (k : JsVal) : Bool :=
  m.any (fun p => p.1 = k)

/-- `map.set(k, v)`: update in place when present, else append as newest. -/
def mapSet {V : Type} (m : JsMap V) (k : JsVal) (v : V) : JsMap V :=
  if mapHas m k then m.map (fun p => if p.1 = k then (k, v) else p)
  else m ++ [(k, v)]

/-- `map.delete(k)`. -/
def mapDelete {V : Type} (m : JsMap V) (k : JsVal) : JsMap V :=
  m.filter (fun p => p.1 ≠ k)

/-- `removeOldestEntry` from src/unnamed/part_001: reads the first key of the
iteration order (`map.keys().next().value`, which is the JS value `undefined`
when the map is empty) and deletes that key unless it is `undefined`. -/
def removeOldestEntry {V : Type} (m : JsMap V) : JsMap V :=
  match m.head? with
  | none => m
  | some p => if p.1 = JsVal.undef then m else mapDelete m p.1

/-! ### The stores

`QueryResultStore` (src/src/query-result-store.ts) extends `SimpleStore`
over the fixed record `\x7bquery, result, transient\x7d` and adds a cache.
`SimpleStore` itself is not under src/; per its README and the spec,
`setState` shallow-merges a partial record into the state, which at this
fixed three-field record amounts to replacing exactly the supplied fields.
The spread `\x7b...old, ...incoming\x7d` used by the setters is `spreadMerge`. -/

/-- JS object spread `\x7b...a, ...b\x7d`: fields of `a` in order, values
overridden by `b` where present (field position kept), then fields of `b`
not in `a`, in their order. -/
def spreadMerge (a b : JsRecord) : JsRecord :=
  a.map (fun p => (p.1, (lookup b p.1).getD p.2))
  ++ b.filter (fun p => !hasField a p.1)

/-- The state of one `QueryResultStore` instance: the three store fields,
the private cache, and the two caching knobs (`useCaching` default `false`,
`cacheLimit` default `100`). -/
structure QRState where
  query : JsRecord
  result : JsRecord
  transient : JsRecord
  cache : JsMap JsRecord
  useCaching : Bool
  cacheLimit : Int
deriving Repr, DecidableEq

/-- A freshly constructed `QueryResultStore` with the given initial
`query`/`result`/`transient` state: empty cache, caching off, limit 100. -/
def mkQueryResultStore (q r t : JsRecord) : QRState :=
  { query := q, result := r, transient := t,
    cache := [], useCaching := false, cacheLimit := 100 }

/-- Modelled from the spec: `SimpleStore.setState` (simple-store.ts is not
under src/). At the fixed record `\x7bquery, result, transient\x7d` the
shallow merge of a partial record replaces exactly the fields present in
the partial, here given as `Option`s. -/
def setState (s : QRState) (q r t : Option JsRecord) : QRState :=
  { s with query := q.getD s.query, result := r.getD s.result,
           transient := t.getD s.transient }

/-- `getState().query`. -/
def getQuery (s : QRState) : JsRecord := s.query

/-- `getState().result`. -/
def getResult (s : QRState) : JsRecord := s.result

/-- `getState().transient`. -/
def getTransient (s : QRState) : JsRecord := s.transient

/-- `setQuery`: merge the partial query and commit via `setState`. -/
def setQuery (s : QRState) (q : JsRecord) : QRState :=
  setState s (some (spreadMerge (getQuery s) q)) none none

/-- `setTransient`: merge the partial transient and commit via `setState`. -/
def setTransient (s : QRState) (t : JsRecord) : QRState :=
  setState s none none (some (spreadMerge (getTransient s) t))

/-- `getCacheKey`: serialize the current query with sorted keys. -/
def getCacheKey (s : QRState) : String :=
  serializeObject (getQuery s) true

/-- `getCachedResult`: `undefined` when caching is off, else the cache
entry at the current key, if present. -/
def getCachedResult (s : QRState) : Option JsRecord :=
  if !s.useCaching then none
  else
    let key := getCacheKey s
    if mapHas s.cache (JsVal.str key) then mapGet s.cache (JsVal.str key)
    else none

/-- `cacheResult`: no-op when caching is off; otherwise evict the oldest
entry when `cache.size >= Math.abs(cacheLimit)`, then store `result` under
the current cache key. -/
def cacheResult (s : QRState) (result : JsRecord) : QRState :=
  if !s.useCaching then s
  else
    let cache1 :=
      if s.cache.length ≥ s.cacheLimit.natAbs then removeOldestEntry s.cache
      else s.cache
    { s with cache := mapSet cache1 (JsVal.str (getCacheKey s)) result }

/-- `setResult`: merge the partial result, cache the merged result, then
commit it via `setState`. -/
def setResult (s : QRState) (result : JsRecord) : QRState :=
  let newResult := spreadMerge (getResult s) result
  setState (cacheResult s newResult) none (some newResult) none

/-- `shouldCache`: toggle the caching flag. -/
def shouldCache (s : QRState) (value : Bool) : QRState :=
  { s with useCaching := value }

/-- One public operation on a `QueryResultStore`. -/
inductive Op where
  | setQuery (q : JsRecord) : Op
  | setResult (r : JsRecord) : Op
  | setTransient (t : JsRecord) : Op
  | cacheResult (r : JsRecord) : Op
  | getCachedResult : Op
  | shouldCache (b : Bool) : Op
deriving Repr

/-- The state transition of one public operation (`getCachedResult` is a
read and leaves the state unchanged). -/
def stepOp (s : QRState) : Op → QRState
  | .setQuery q => setQuery s q
  | .setResult r => setResult s r
  | .setTransient t => setTransient s t
  | .cacheResult r => cacheResult s r
  | .getCachedResult => s
  | .shouldCache b => shouldCache s b

/-- Run a sequence of public operations from a state. -/
def runOps (s : QRState) (ops : List Op) : QRState :=
  ops.foldl stepOp s

/-! ### `StateSubject` (the change-gated emitter)

state-subject.ts is not under src/, so the emitter is modelled from the
spec. We track, besides `current` and the last value actually delivered,
the log of values delivered to a subscriber. Deep equality on the value
type is its decidable equality. -/

/-- Modelled from the spec: a `StateSubject` (ChangeGatedEmitter) holds
`current` and the last emitted value, here together with the log of values
delivered to subscribers. -/
structure StateSubject (V : Type) where
  current : V
  lastEmitted : V
  delivered : List V
deriving Repr

/-- Modelled from the spec: `update(v)` always overwrites `current`;
it delivers `v` (appending to the log and updating `lastEmitted`) only
when `v` deeply differs from the last delivered value. -/
def update {V : Type} [DecidableEq V] (e : StateSubject V) (v : V) :
    StateSubject V :=
  if v = e.lastEmitted then { e with current := v }
  else { current := v, lastEmitted := v, delivered := e.delivered ++ [v] }

/-- Run a sequence of `update` calls. -/
def runUpdates {V : Type} [DecidableEq V] (e : StateSubject V)
    (vs : List V) : StateSubject V :=
  vs.foldl update e

/-- The subsequence of an update sequence that the claim says is delivered:
the values deeply different from the previously delivered value. -/
def gatedFilter {V : Type} [DecidableEq V] (last : V) : List V → List V
  | [] => []
  | v :: vs => if v = last then gatedFilter last vs else v :: gatedFilter v vs

/-- The reads performed by `getCachedResult` (`map.has`, `map.get`), with the
map they leave behind made explicit: both are pure reads of an ES `Map`. -/
def mapHasOp {V : Type} (m : JsMap V) (k : JsVal) : Bool × JsMap V :=
  (mapHas m k, m)

/-- `map.get` with the map it leaves behind made explicit. -/
def mapGetOp {V : Type} (m : JsMap V) (k : JsVal) : Option V × JsMap V :=
  (mapGet m k, m)

/-- `getCacheKey` with the store state it leaves behind made explicit: it
only reads the current query (`getState`) and serializes it. -/
def getCacheKeyOp (s : QRState) : String × QRState :=
  (getCacheKey s, s)

/-- `getCachedResult` with the store state it leaves behind made explicit,
threading the state through each `Map` read it performs. -/
def getCachedResultOp (s : QRState) : Option JsRecord × QRState :=
  if !s.useCaching then (none, s)
  else
    let kp := getCacheKeyOp s
    let hp := mapHasOp kp.2.cache (JsVal.str kp.1)
    let s1 : QRState := { kp.2 with cache := hp.2 }
    if hp.1 then
      let gp := mapGetOp s1.cache (JsVal.str kp.1)
      (gp.1, { s1 with cache := gp.2 })
    else (none, s1)

/-! ### Helper lemmas about the `Map` model -/

/-- `mapSet` adds at most one entry. -/
theorem length_mapSet_le {V : Type} (m : JsMap V) (k : JsVal) (v : V) :
    (mapSet m k v).length ≤ m.length + 1 := by
  unfold mapSet
  split
  · simp
  · simp

/-- Overwriting an existing key leaves the key sequence (hence every
entry's insertion-order position) unchanged. -/
theorem mapSet_keys_of_has {V : Type} (m : JsMap V) (k : JsVal) (v : V)
    (h : mapHas m k = true) : (mapSet m k v).map Prod.fst = m.map Prod.fst := by
  unfold mapSet
  rw [if_pos h, List.map_map]
  apply List.map_congr_left
  intro p _
  by_cases hp : p.1 = k
  · simp [hp]
  · simp [hp]

/-- Overwriting in place stores the value for the key. -/
theorem mapGet_map_overwrite {V : Type} (m : JsMap V) (k : JsVal) (v : V)
    (h : mapHas m k = true) :
    mapGet (m.map (fun p => if p.1 = k then (k, v) else p)) k = some v := by
  induction m with
  | nil => simp [mapHas] at h
  | cons p m ih =>
    by_cases hp : p.1 = k
    · simp [mapGet, hp]
    · have hm : mapHas m k = true := by
        simpa [mapHas, hp] using h
      simpa [mapGet, hp] using ih hm

/-- Appending a fresh entry stores the value for the key. -/
theorem mapGet_append_fresh {V : Type} (m : JsMap V) (k : JsVal) (v : V)
    (h : ¬mapHas m k = true) : mapGet (m ++ [(k, v)]) k = some v := by
  induction m with
  | nil => simp [mapGet]
  | cons p m ih =>
    by_cases hp : p.1 = k
    · exact absurd (by simp [mapHas, hp]) h
    · have hcons : mapHas (p :: m) k = (decide (p.1 = k) || mapHas m k) := rfl
      have hm : ¬mapHas m k = true := fun hc => h (by rw [hcons, hc, Bool.or_true])
      simpa [mapGet, hp] using ih hm

/-- The entry stored by `mapSet` is found by `mapGet`. -/
theorem mapGet_mapSet_self {V : Type} (m : JsMap V) (k : JsVal) (v : V) :
    mapGet (mapSet m k v) k = some v := by
  unfold mapSet
  split
  · exact mapGet_map_overwrite m k v (by assumption)
  · exact mapGet_append_fresh m k v (by assumption)

/-- A successful `mapGet` implies `mapHas`. -/
theorem mapHas_of_mapGet_eq_some {V : Type} {m : JsMap V} {k : JsVal} {v : V}
    (h : mapGet m k = some v) : mapHas m k = true := by
  induction m with
  | nil => simp [mapGet] at h
  | cons p m ih =>
    by_cases hp : p.1 = k
    · simp [mapHas, hp]
    · have h' : mapGet m k = some v := by
        simpa [mapGet, hp] using h
      simpa [mapHas, hp] using ih h'

/-- The key just written is present. -/
theorem mapHas_mapSet_self {V : Type} (m : JsMap V) (k : JsVal) (v : V) :
    mapHas (mapSet m k v) k = true :=
  mapHas_of_mapGet_eq_some (mapGet_mapSet_self m k v)

/-- Whether a JS value is a string. -/
def isStr : JsVal → Bool
  | .str _ => true
  | _ => false

/-- All keys of the map are strings (as cache keys always are). -/
def strKeys {V : Type} (m : JsMap V) : Bool :=
  m.all (fun p => isStr p.1)

/-- A string key is not the value `undefined`. -/
theorem isStr_ne_undef {k : JsVal} (h : isStr k = true) : k ≠ JsVal.undef := by
  cases k <;> simp [isStr] at h ⊢

/-- `mapSet` with a string key preserves `strKeys`. -/
theorem strKeys_mapSet {V : Type} {m : JsMap V} {k : JsVal} (v : V)
    (hm : strKeys m = true) (hk : isStr k = true) :
    strKeys (mapSet m k v) = true := by
  unfold mapSet
  split
  · simp only [strKeys, List.all_map, List.all_eq_true] at hm ⊢
    intro p hp
    by_cases hpk : p.1 = k
    · simpa [Function.comp, hpk] using hk
    · simpa [Function.comp, hpk] using hm p hp
  · simp only [strKeys] at hm ⊢
    rw [List.all_append]
    simp [hm, hk]

/-- `removeOldestEntry` only keeps existing entries, preserving `strKeys`. -/
theorem strKeys_removeOldestEntry {V : Type} {m : JsMap V}
    (hm : strKeys m = true) : strKeys (removeOldestEntry m) = true := by
  unfold removeOldestEntry
  split
  · exact hm
  · split
    · exact hm
    · simp only [mapDelete, strKeys, List.all_eq_true] at hm ⊢
      intro p hp
      exact hm p (List.mem_of_mem_filter hp)

/-- On a non-empty map with string keys, `removeOldestEntry` removes at
least one entry. -/
theorem length_removeOldestEntry_lt {V : Type} {m : JsMap V}
    (hs : strKeys m = true) (hne : m ≠ []) :
    (removeOldestEntry m).length < m.length := by
  match m, hne with
  | p :: rest, _ =>
    have hp : isStr p.1 = true := by
      simp only [strKeys, List.all_eq_true] at hs
      exact hs p (List.mem_cons_self p rest)
    unfold removeOldestEntry
    simp only [List.head?_cons]
    rw [if_neg (isStr_ne_undef hp)]
    unfold mapDelete
    rw [List.filter_cons, if_neg (by simp)]
    calc (List.filter (fun q => decide (q.1 ≠ p.1)) rest).length
        ≤ rest.length := List.length_filter_le _ _
      _ < (p :: rest).length := by simp [List.length_cons]

/-- On a map with pairwise-distinct string keys, `removeOldestEntry` drops
exactly the earliest-inserted entry, leaving the rest unchanged. -/
theorem removeOldestEntry_eq_tail {V : Type} {m : JsMap V}
    (hs : strKeys m = true) (hnd : (m.map Prod.fst).Nodup) :
    removeOldestEntry m = m.tail := by
  match m with
  | [] => rfl
  | p :: rest =>
    have hp : isStr p.1 = true := by
      simp only [strKeys, List.all_eq_true] at hs
      exact hs p (List.mem_cons_self p rest)
    unfold removeOldestEntry
    simp only [List.head?_cons]
    rw [if_neg (isStr_ne_undef hp)]
    unfold mapDelete
    rw [List.filter_cons, if_neg (by simp)]
    simp only [List.tail_cons]
    apply List.filter_eq_self.2
    intro q hq
    simp only [List.map_cons, List.nodup_cons] at hnd
    have hqp : q.1 ≠ p.1 := by
      intro heq
      apply hnd.1
      rw [← heq]
      exact List.mem_map_of_mem Prod.fst hq
    simp [hqp]

/-! ### The cache capacity invariant -/

/-- Invariant carried by every reachable store state: the default limit,
the capacity bound, and string-valued cache keys. -/
def CacheInv (s : QRState) : Prop :=
  s.cacheLimit = 100 ∧ s.cache.length ≤ 100 ∧ strKeys s.cache = true

/-- With caching disabled, `cacheResult` returns without touching anything. -/
theorem cacheResult_of_disabled (s : QRState) (r : JsRecord)
    (hc : s.useCaching = false) : cacheResult s r = s := by
  simp [cacheResult, hc]

/-- With caching enabled, `cacheResult` evicts at capacity and stores the
result under the current key. -/
theorem cacheResult_of_enabled (s : QRState) (r : JsRecord)
    (hc : s.useCaching = true) :
    cacheResult s r
      = { s with
          cache := mapSet
            (if s.cache.length ≥ s.cacheLimit.natAbs
              then removeOldestEntry s.cache else s.cache)
            (JsVal.str (getCacheKey s)) r } := by
  simp only [cacheResult, hc, Bool.not_true]
  rfl

/-- `cacheResult` preserves the capacity invariant. -/
theorem cacheInv_cacheResult (s : QRState) (r : JsRecord)
    (h : CacheInv s) : CacheInv (cacheResult s r) := by
  obtain ⟨hlim, hlen, hkeys⟩ := h
  by_cases hc : s.useCaching = true
  · rw [cacheResult_of_enabled s r hc]
    by_cases hge : s.cache.length ≥ s.cacheLimit.natAbs
    · rw [if_pos hge]
      have hne : s.cache ≠ [] := by
        rw [hlim, show ((100 : Int).natAbs = 100) from rfl] at hge
        intro hnil
        rw [hnil] at hge
        simp only [List.length_nil] at hge
        omega
      have h1 : (removeOldestEntry s.cache).length < s.cache.length :=
        length_removeOldestEntry_lt hkeys hne
      have h2 := length_mapSet_le (removeOldestEntry s.cache)
        (JsVal.str (getCacheKey s)) r
      exact ⟨hlim, by dsimp only; omega,
        strKeys_mapSet r (strKeys_removeOldestEntry hkeys) rfl⟩
    · rw [if_neg hge]
      rw [hlim, show ((100 : Int).natAbs = 100) from rfl] at hge
      have h2 := length_mapSet_le s.cache (JsVal.str (getCacheKey s)) r
      exact ⟨hlim, by dsimp only; omega, strKeys_mapSet r hkeys rfl⟩
  · rw [cacheResult_of_disabled s r (Bool.not_eq_true _ ▸ hc)]
    exact ⟨hlim, hlen, hkeys⟩

/-- Every public operation preserves the capacity invariant. -/
theorem cacheInv_stepOp (s : QRState) (op : Op)
    (h : CacheInv s) : CacheInv (stepOp s op) := by
  cases op with
  | setQuery q => exact h
  | setResult r => exact cacheInv_cacheResult s _ h
  | setTransient t => exact h
  | cacheResult r => exact cacheInv_cacheResult s r h
  | getCachedResult => exact h
  | shouldCache b => exact h

/-- Every sequence of public operations preserves the capacity invariant. -/
theorem cacheInv_runOps (s : QRState) (ops : List Op)
    (h : CacheInv s) : CacheInv (runOps s ops) := by
  induction ops generalizing s with
  | nil => exact h
  | cons op ops ih => exact ih (stepOp s op) (cacheInv_stepOp s op h)

/-! ### Claim theorems -/

/-- C1: over every sequence of public operations on a freshly constructed
`QueryResultStore`, the cache holds at most `cacheLimit` (default 100,
absolute value) entries; and whenever `cacheResult` inserts while the cache
is at or above `Math.abs(cacheLimit)`, exactly the earliest-inserted entry
(the head of the insertion order) is evicted before the new entry is stored
under the current key. -/
theorem qrs_cache_capacity_and_eviction :
    (∀ (q r t : JsRecord) (ops : List Op),
      (runOps (mkQueryResultStore q r t) ops).cache.length ≤ 100) ∧
    (∀ (s : QRState) (res : JsRecord),
      s.useCaching = true → strKeys s.cache = true →
      (s.cache.map Prod.fst).Nodup →
      s.cacheLimit.natAbs ≤ s.cache.length →
      (cacheResult s res).cache
        = mapSet s.cache.tail (JsVal.str (getCacheKey s)) res) := by
  constructor
  · intro q r t ops
    exact (cacheInv_runOps (mkQueryResultStore q r t) ops
      ⟨rfl, by simp [mkQueryResultStore], rfl⟩).2.1
  · intro s res hc hkeys hnd hlen
    rw [cacheResult_of_enabled s res hc]
    dsimp only
    rw [if_pos hlen, removeOldestEntry_eq_tail hkeys hnd]

/-- A store state at capacity with caching on, used to witness eviction. -/
def capacityWitnessState : QRState :=
  { query := [], result := [], transient := [],
    cache := [(JsVal.str "a", [])], useCaching := true, cacheLimit := 1 }

/-- Witness for C1 at concrete inputs. -/
theorem qrs_cache_capacity_and_eviction_witness :
    (runOps (mkQueryResultStore [] [] []) [Op.shouldCache true]).cache.length ≤ 100 ∧
    (cacheResult capacityWitnessState [("v", JsVal.num 1)]).cache
      = mapSet capacityWitnessState.cache.tail
          (JsVal.str (getCacheKey capacityWitnessState)) [("v", JsVal.num 1)] :=
  ⟨qrs_cache_capacity_and_eviction.1 [] [] [] [Op.shouldCache true],
   qrs_cache_capacity_and_eviction.2 capacityWitnessState [("v", JsVal.num 1)]
     rfl rfl (by decide) (by decide)⟩

/-- C8: `removeOldestEntry` removes at most one entry: on a non-empty map
whose earliest key is not the value `undefined` it deletes exactly the
earliest-inserted entry and keeps all others; on an empty map, or when the
earliest key is `undefined`, it changes nothing (and, being total, throws
nothing). -/
theorem removeOldestEntry_at_most_one :
    (∀ (V : Type) (m : JsMap V), m = [] → removeOldestEntry m = m) ∧
    (∀ (V : Type) (m : JsMap V) (k : JsVal) (v : V) (rest : List (JsVal × V)),
      m = (k, v) :: rest → k = JsVal.undef → removeOldestEntry m = m) ∧
    (∀ (V : Type) (m : JsMap V) (k : JsVal) (v : V) (rest : List (JsVal × V)),
      m = (k, v) :: rest → k ≠ JsVal.undef → (m.map Prod.fst).Nodup →
      removeOldestEntry m = rest) := by
  refine ⟨?_, ?_, ?_⟩
  · intro V m hm
    subst hm
    rfl
  · intro V m k v rest hm hk
    subst hm
    subst hk
    simp [removeOldestEntry]
  · intro V m k v rest hm hk hnd
    subst hm
    unfold removeOldestEntry
    simp only [List.head?_cons]
    rw [if_neg hk]
    unfold mapDelete
    rw [List.filter_cons, if_neg (by simp)]
    apply List.filter_eq_self.2
    intro q hq
    simp only [List.map_cons, List.nodup_cons] at hnd
    have hqp : q.1 ≠ k := by
      intro heq
      apply hnd.1
      rw [← heq]
      exact List.mem_map_of_mem Prod.fst hq
    simp [hqp]

/-- Witness for C8 at concrete inputs. -/
theorem removeOldestEntry_at_most_one_witness :
    removeOldestEntry ([] : JsMap Nat) = [] ∧
    removeOldestEntry [(JsVal.undef, (5 : Nat))] = [(JsVal.undef, (5 : Nat))] ∧
    removeOldestEntry [(JsVal.str "a", (1 : Nat)), (JsVal.str "b", 2)]
      = [(JsVal.str "b", (2 : Nat))] :=
  ⟨removeOldestEntry_at_most_one.1 Nat [] rfl,
   removeOldestEntry_at_most_one.2.1 Nat _ JsVal.undef 5 [] rfl rfl,
   removeOldestEntry_at_most_one.2.2 Nat _ (JsVal.str "a") 1
     [(JsVal.str "b", 2)] rfl (by decide) (by decide)⟩

/-- C6: `setQuery` shallow-merges into the query field only, leaving result
and transient unchanged; `setTransient` shallow-merges into the transient
field only, leaving query and result unchanged. -/
theorem setQuery_setTransient_frame (s : QRState) (q t : JsRecord) :
    getQuery (setQuery s q) = spreadMerge (getQuery s) q ∧
    getResult (setQuery s q) = getResult s ∧
    getTransient (setQuery s q) = getTransient s ∧
    getTransient (setTransient s t) = spreadMerge (getTransient s) t ∧
    getQuery (setTransient s t) = getQuery s ∧
    getResult (setTransient s t) = getResult s :=
  ⟨rfl, rfl, rfl, rfl, rfl, rfl⟩

/-- C7: over every sequence of `update` calls on a `StateSubject`, the
values delivered to a subscriber are exactly the subsequence of updated
values that deeply differ from the previously delivered value; the
last-emitted bookkeeping changes only on actual delivery, while `current`
is always overwritten. -/
theorem stateSubject_update_gating (V : Type) [DecidableEq V]
    (e : StateSubject V) (vs : List V) :
    (runUpdates e vs).delivered = e.delivered ++ gatedFilter e.lastEmitted vs ∧
    (runUpdates e vs).lastEmitted
      = (gatedFilter e.lastEmitted vs).getLastD e.lastEmitted ∧
    (runUpdates e vs).current = vs.getLastD e.current := by
  induction vs generalizing e with
  | nil => simp [runUpdates, gatedFilter]
  | cons v vs ih =>
    have hrun : runUpdates e (v :: vs) = runUpdates (update e v) vs := rfl
    by_cases hv : v = e.lastEmitted
    · have hup : update e v = { e with current := v } := by
        simp [update, hv]
      obtain ⟨ih1, ih2, ih3⟩ := ih { e with current := v }
      rw [hrun, hup]
      have hg : gatedFilter e.lastEmitted (v :: vs) = gatedFilter e.lastEmitted vs := by
        simp [gatedFilter, hv]
      refine ⟨?_, ?_, ?_⟩
      · rw [ih1, hg]
      · rw [ih2, hg]
      · rw [ih3, List.getLastD_cons]
    · have hup : update e v
          = { current := v, lastEmitted := v, delivered := e.delivered ++ [v] } := by
        simp [update, hv]
      obtain ⟨ih1, ih2, ih3⟩ :=
        ih { current := v, lastEmitted := v, delivered := e.delivered ++ [v] }
      rw [hrun, hup]
      have hg : gatedFilter e.lastEmitted (v :: vs) = v :: gatedFilter v vs := by
        simp [gatedFilter, hv]
      refine ⟨?_, ?_, ?_⟩
      · rw [ih1, hg]
        dsimp only
        rw [List.append_assoc]
        rfl
      · rw [ih2, hg, List.getLastD_cons]
      · rw [ih3, List.getLastD_cons]

/-- C10: `getCachedResult` and `getCacheKey` are pure reads: with each read
they perform on the `Map` made explicit, they leave the store state (hence
the cache contents and its insertion order) unchanged, return the same
value as the pure functions, and two consecutive calls with no intervening
mutation agree. -/
theorem getCachedResult_pure_read (s : QRState) :
    (getCachedResultOp s).2 = s ∧
    (getCacheKeyOp s).2 = s ∧
    (getCachedResultOp s).1 = getCachedResult s ∧
    (getCacheKeyOp s).1 = getCacheKey s ∧
    (getCachedResultOp ((getCachedResultOp s).2)).1 = (getCachedResultOp s).1 ∧
    (getCacheKeyOp ((getCacheKeyOp s).2)).1 = (getCacheKeyOp s).1 := by
  have h : getCachedResultOp s = (getCachedResult s, s) := by
    unfold getCachedResultOp getCachedResult getCacheKeyOp mapHasOp mapGetOp
    dsimp only
    split
    · rfl
    · split
      · rfl
      · rfl
  refine ⟨by rw [h], rfl, by rw [h], rfl, ?_, rfl⟩
  rw [h]
  dsimp only
  rw [h]

/-- The query of a store rebuilt with other fields is unchanged, and so is
its cache key. -/
theorem getCacheKey_congr (s' s : QRState) (h : s'.query = s.query) :
    getCacheKey s' = getCacheKey s := by
  unfold getCacheKey getQuery
  rw [h]

/-- With caching enabled, `setResult` merges the partial result into the
result field and stores the merged result in the cache under the key of the
(unchanged) current query. -/
theorem setResult_of_enabled (s : QRState) (p : JsRecord)
    (hc : s.useCaching = true) :
    setResult s p
      = { s with
          result := spreadMerge s.result p,
          cache := mapSet
              (if s.cache.length ≥ s.cacheLimit.natAbs
                then removeOldestEntry s.cache else s.cache)
              (JsVal.str (getCacheKey s)) (spreadMerge s.result p) } := by
  unfold setResult setState getResult
  dsimp only
  rw [cacheResult_of_enabled s _ hc]
  rfl

/-- C5: while caching is disabled, `getCachedResult` returns `undefined`
and `cacheResult` changes nothing at all (cached entries included), and
neither throws (both are total); re-enabling caching makes an entry still
present in the cache for the current query visible again. -/
theorem caching_disabled_inert :
    (∀ (s : QRState) (res : JsRecord), s.useCaching = false →
      getCachedResult s = none ∧ cacheResult s res = s) ∧
    (∀ (s : QRState) (v : JsRecord),
      mapGet s.cache (JsVal.str (getCacheKey s)) = some v →
      getCachedResult (shouldCache s true) = some v) := by
  constructor
  · intro s res hc
    refine ⟨?_, cacheResult_of_disabled s res hc⟩
    simp [getCachedResult, hc]
  · intro s v hv
    have hhas := mapHas_of_mapGet_eq_some hv
    unfold getCacheKey getQuery at hv hhas
    unfold getCachedResult shouldCache getCacheKey getQuery
    dsimp only
    rw [if_neg (by simp), if_pos hhas]
    exact hv

/-- A disabled store that still holds a cache entry for its current query,
to witness that re-enabling caching exposes the entry. -/
def disabledWitnessState : QRState :=
  { query := [], result := [], transient := [],
    cache := [(JsVal.str (serializeObject [] true), [("a", JsVal.num 1)])],
    useCaching := false, cacheLimit := 100 }

/-- Witness for C5 at concrete inputs. -/
theorem caching_disabled_inert_witness :
    (getCachedResult disabledWitnessState = none ∧
      cacheResult disabledWitnessState [] = disabledWitnessState) ∧
    getCachedResult (shouldCache disabledWitnessState true)
      = some [("a", JsVal.num 1)] :=
  ⟨caching_disabled_inert.1 disabledWitnessState [] rfl,
   caching_disabled_inert.2 disabledWitnessState [("a", JsVal.num 1)] (by decide)⟩

/-- The end-to-end store of the spec scenario: query `page: 1`, empty item
list as the result, caching switched on. -/
def e2eStore : QRState :=
  shouldCache
    (mkQueryResultStore [("page", JsVal.num 1)] [("items", JsVal.arr [])] [])
    true

/-- The scenario store right after `setResult` of `items: ["A"]`. -/
def e2eAfterSet : QRState :=
  setResult e2eStore [("items", JsVal.arr [JsVal.str "A"])]

/-- C4: with caching enabled, `setResult` shallow-merges the partial into
the result, leaves the query alone, and stores the fully-merged result in
the cache under the current query's key, so `getCachedResult` finds it; and
the end-to-end scenario: after caching `items: ["A"]` under `page: 1`, the
entry is visible, invisible after moving to `page: 2`, and visible again
after moving back. -/
theorem setResult_merges_and_caches :
    (∀ (s : QRState) (p : JsRecord), s.useCaching = true →
      getResult (setResult s p) = spreadMerge (getResult s) p ∧
      getQuery (setResult s p) = getQuery s ∧
      getCachedResult (setResult s p) = some (spreadMerge (getResult s) p)) ∧
    (getCachedResult e2eAfterSet = some [("items", JsVal.arr [JsVal.str "A"])] ∧
      getCachedResult (setQuery e2eAfterSet [("page", JsVal.num 2)]) = none ∧
      getCachedResult
          (setQuery (setQuery e2eAfterSet [("page", JsVal.num 2)])
            [("page", JsVal.num 1)])
        = some [("items", JsVal.arr [JsVal.str "A"])]) := by
  constructor
  · intro s p hc
    have h := setResult_of_enabled s p hc
    have hkey : getCacheKey (setResult s p) = getCacheKey s :=
      getCacheKey_congr (setResult s p) s (by rw [h])
    refine ⟨by rw [h]; rfl, by rw [h]; rfl, ?_⟩
    unfold getCachedResult
    dsimp only
    rw [hkey, h]
    dsimp only
    rw [hc]
    rw [if_neg (by simp), if_pos (mapHas_mapSet_self _ _ _)]
    exact mapGet_mapSet_self _ _ _
  · refine ⟨by decide, by decide, by decide⟩

/-- A store with caching enabled and `cacheLimit` configured to 2 (as a
subclass may set the protected field), as in the spec scenario. -/
def limit2Store : QRState :=
  { query := [], result := [], transient := [], cache := [],
    useCaching := true, cacheLimit := 2 }

/-- The spec scenario on `limit2Store`: cache results under the query keys
K1, K2, K3 (reaching cache = K2, K3), then re-insert under K2, then insert
under the fresh key K4. -/
def reinsertScenario : QRState :=
  runOps limit2Store
    [ Op.setQuery [("page", JsVal.num 1)], Op.cacheResult [("v", JsVal.num 1)],
      Op.setQuery [("page", JsVal.num 2)], Op.cacheResult [("v", JsVal.num 2)],
      Op.setQuery [("page", JsVal.num 3)], Op.cacheResult [("v", JsVal.num 3)],
      Op.setQuery [("page", JsVal.num 2)], Op.cacheResult [("v", JsVal.num 22)],
      Op.setQuery [("page", JsVal.num 4)], Op.cacheResult [("v", JsVal.num 4)] ]

/-- C2 counterexample: in the spec scenario the final insertion of the
fresh key K4 evicts K3 (absent below) and keeps the re-inserted K2
(present below) — re-insertion at capacity does reset K2 to the newest
eviction position, contradicting the claim that K4 would evict K2, not K3. -/
theorem qrs_reinsert_at_capacity_counterexample :
    mapHas reinsertScenario.cache
        (JsVal.str (serializeObject [("page", JsVal.num 3)] true)) = false ∧
    mapHas reinsertScenario.cache
        (JsVal.str (serializeObject [("page", JsVal.num 2)] true)) = true := by
  decide

/-- C2 amended: overwriting an existing key keeps every entry position
(`mapSet` is order-preserving) and `cacheResult` below capacity is plain
`mapSet`; but a `cacheResult` call at or above capacity first evicts the
oldest entry even when that is the key being re-inserted, so in the spec
scenario re-inserting K2 moves it to the newest position (K3 surviving)
and the subsequent insertion of K4 evicts K3, not K2. -/
theorem qrs_reinsert_order_amended :
    (∀ (s : QRState) (res : JsRecord), s.useCaching = true →
      s.cache.length < s.cacheLimit.natAbs →
      (cacheResult s res).cache
        = mapSet s.cache (JsVal.str (getCacheKey s)) res) ∧
    (∀ (V : Type) (m : JsMap V) (k : JsVal) (v : V), mapHas m k = true →
      (mapSet m k v).map Prod.fst = m.map Prod.fst) ∧
    reinsertScenario.cache
      = [ (JsVal.str (serializeObject [("page", JsVal.num 2)] true),
            [("v", JsVal.num 22)]),
          (JsVal.str (serializeObject [("page", JsVal.num 4)] true),
            [("v", JsVal.num 4)]) ] := by
  refine ⟨?_, ?_, by decide⟩
  · intro s res hc hlt
    rw [cacheResult_of_enabled s res hc]
    dsimp only
    rw [if_neg (by omega)]
  · intro V m k v h
    exact mapSet_keys_of_has m k v h

/-- Witness for the amended C2 at concrete inputs. -/
theorem qrs_reinsert_order_amended_witness :
    (cacheResult limit2Store [("v", JsVal.num 9)]).cache
        = mapSet limit2Store.cache (JsVal.str (getCacheKey limit2Store))
            [("v", JsVal.num 9)] ∧
    (mapSet [(JsVal.str "a", (1 : Nat))] (JsVal.str "a") 2).map Prod.fst
        = [(JsVal.str "a", (1 : Nat))].map Prod.fst :=
  ⟨qrs_reinsert_order_amended.1 limit2Store [("v", JsVal.num 9)] rfl (by decide),
   qrs_reinsert_order_amended.2.1 Nat [(JsVal.str "a", 1)] (JsVal.str "a") 2
     (by decide)⟩

/-- `lookup` at the head key. -/
theorem lookup_cons_self (pk : String) (pv : JsVal) (r : JsRecord) :
    lookup ((pk, pv) :: r) pk = some pv := by
  simp [lookup]

/-- `lookup` skips a head entry with a different key. -/
theorem lookup_cons_ne (pk : String) (pv : JsVal) (r : JsRecord) (k : String)
    (h : pk ≠ k) : lookup ((pk, pv) :: r) k = lookup r k := by
  unfold lookup
  rw [List.find?_cons_of_neg]
  simp [h]

/-- `lookup` in a single-entry record. -/
theorem lookup_singleton (k x : String) (v : JsVal) :
    lookup [(k, v)] x = if k = x then some v else none := by
  by_cases h : k = x
  · subst h
    simp [lookup_cons_self]
  · rw [lookup_cons_ne k v [] x h, if_neg h]
    rfl

/-- `lookup` finds the field explicitly set to `undefined` by the spread. -/
theorem lookup_spreadMerge_undef (a : JsRecord) (k : String) :
    lookup (spreadMerge a [(k, JsVal.undef)]) k = some JsVal.undef := by
  unfold spreadMerge
  induction a with
  | nil => simp [lookup, hasField]
  | cons p a ih =>
    obtain ⟨pk, pv⟩ := p
    by_cases hp : pk = k
    · subst hp
      simp only [List.map_cons, lookup_singleton, if_pos rfl, Option.getD_some]
      exact lookup_cons_self pk JsVal.undef _
    · have hf : hasField ((pk, pv) :: a) k = hasField a k := by
        have hb : (pk == k) = false := by
          simpa using hp
        simp [hasField, hb]
      simp only [List.map_cons, List.cons_append]
      rw [lookup_cons_ne _ _ _ _ hp]
      simp only [List.filter_singleton] at ih ⊢
      rw [hf]
      exact ih

/-- Dropping `undefined`-valued fields after overwriting field `k` with
`undefined` equals dropping field `k` first. -/
theorem filter_overwrite_undef (a : JsRecord) (k : String) :
    (a.map (fun p => (p.1, (lookup [(k, JsVal.undef)] p.1).getD p.2))).filter
        (fun p => p.2 ≠ JsVal.undef)
      = (a.filter (fun p => p.1 ≠ k)).filter (fun p => p.2 ≠ JsVal.undef) := by
  induction a with
  | nil => rfl
  | cons p a ih =>
    obtain ⟨pk, pv⟩ := p
    by_cases hp : pk = k
    · subst hp
      simp only [List.map_cons, List.filter_cons]
      rw [show lookup [(pk, JsVal.undef)] pk = some JsVal.undef from
        lookup_cons_self pk JsVal.undef []]
      simp only [Option.getD_some]
      rw [if_neg (by simp), if_neg (by simp)]
      exact ih
    · have hl : lookup [(k, JsVal.undef)] pk = none := by
        rw [lookup_singleton, if_neg (fun he => hp he.symm)]
      simp only [List.map_cons, List.filter_cons, hl, Option.getD_none]
      by_cases hv : pv = JsVal.undef
      · rw [if_neg (by simp [hv]), if_pos (by simp [hp]), List.filter_cons,
          if_neg (by simp [hv])]
        exact ih
      · rw [if_pos (by simp [hv]), if_pos (by simp [hp]), List.filter_cons,
          if_pos (by simp [hv]), ih]

/-- Dropping `undefined`-valued fields of a spread that set one field to
`undefined` equals dropping that field first. -/
theorem filter_spreadMerge_undef (a : JsRecord) (k : String) :
    (spreadMerge a [(k, JsVal.undef)]).filter (fun p => p.2 ≠ JsVal.undef)
      = (a.filter (fun p => p.1 ≠ k)).filter (fun p => p.2 ≠ JsVal.undef) := by
  unfold spreadMerge
  rw [List.filter_append]
  have happ : List.filter (fun p => p.2 ≠ JsVal.undef)
      (List.filter (fun p => !hasField a p.1) [(k, JsVal.undef)]) = [] := by
    by_cases h : hasField a k = true <;> simp [h]
  rw [happ, List.append_nil]
  exact filter_overwrite_undef a k

/-- `serializeObject` with sorted keys only depends on the record once its
`undefined`-valued fields are dropped. -/
theorem serializeObject_eq_of_filter_eq (q1 q2 : JsRecord)
    (h : q1.filter (fun p => p.2 ≠ JsVal.undef)
        = q2.filter (fun p => p.2 ≠ JsVal.undef)) :
    serializeObject q1 true = serializeObject q2 true := by
  unfold serializeObject
  rw [h]

/-- C9: `setQuery` with a field explicitly set to `undefined` stores the
field as present-with-`undefined` in the query (shallow merge keeps it),
and the cache key thereafter omits it: it equals the key of the same query
with that field absent. -/
theorem setQuery_undef_field_cache_key (s : QRState) (k : String) :
    lookup (getQuery (setQuery s [(k, JsVal.undef)])) k = some JsVal.undef ∧
    getCacheKey (setQuery s [(k, JsVal.undef)])
      = serializeObject (s.query.filter (fun p => p.1 ≠ k)) true := by
  constructor
  · exact lookup_spreadMerge_undef s.query k
  · exact serializeObject_eq_of_filter_eq _ _ (filter_spreadMerge_undef s.query k)

/-- With pairwise-distinct keys, `lookup` succeeding is membership. -/
theorem lookup_eq_some_iff (r : JsRecord) (k : String) (v : JsVal)
    (hnd : (r.map Prod.fst).Nodup) :
    lookup r k = some v ↔ (k, v) ∈ r := by
  induction r with
  | nil =>
    simp [lookup]
  | cons p r ih =>
    obtain ⟨pk, pv⟩ := p
    simp only [List.map_cons, List.nodup_cons] at hnd
    by_cases hk : pk = k
    · subst hk
      rw [lookup_cons_self]
      constructor
      · intro h
        injection h with h
        subst h
        exact List.mem_cons_self _ _
      · intro h
        rcases List.mem_cons.1 h with h | h
        · rw [Prod.mk.injEq] at h
          rw [h.2]
        · exact absurd (List.mem_map_of_mem Prod.fst h) hnd.1
    · rw [lookup_cons_ne _ _ _ _ hk, ih hnd.2, List.mem_cons]
      constructor
      · exact Or.inr
      · rintro (h | h)
        · rw [Prod.mk.injEq] at h
          exact absurd h.1.symm hk
        · exact h

/-- `lookup` succeeds exactly on the keys of the record. -/
theorem lookup_isSome_iff (r : JsRecord) (k : String) :
    (lookup r k).isSome = true ↔ k ∈ r.map Prod.fst := by
  induction r with
  | nil => simp [lookup]
  | cons p r ih =>
    obtain ⟨pk, pv⟩ := p
    by_cases hk : pk = k
    · subst hk
      rw [lookup_cons_self]
      simp
    · rw [lookup_cons_ne _ _ _ _ hk]
      simp only [List.map_cons, List.mem_cons]
      rw [ih]
      constructor
      · exact Or.inr
      · rintro (h | h)
        · exact absurd h.symm hk
        · exact h

/-- Two records with pairwise-distinct keys and identical lookups yield the
same sorted-keys serialization. -/
theorem serializeObject_congr (f1 f2 : JsRecord)
    (hk1 : (f1.map Prod.fst).Nodup) (hk2 : (f2.map Prod.fst).Nodup)
    (hl : ∀ k, lookup f1 k = lookup f2 k) :
    serializeRecord
        ((List.insertionSort (fun a b => a ≤ b) (f1.map Prod.fst)).filterMap
          (fun k => (lookup f1 k).map (fun v => (k, v))))
      = serializeRecord
        ((List.insertionSort (fun a b => a ≤ b) (f2.map Prod.fst)).filterMap
          (fun k => (lookup f2 k).map (fun v => (k, v)))) := by
  have hkeysmem : ∀ x, x ∈ f1.map Prod.fst ↔ x ∈ f2.map Prod.fst := by
    intro x
    rw [← lookup_isSome_iff f1 x, ← lookup_isSome_iff f2 x, hl x]
  have hperm : List.Perm (f1.map Prod.fst) (f2.map Prod.fst) :=
    (List.perm_ext_iff_of_nodup hk1 hk2).2 hkeysmem
  have hs1 : List.Sorted (fun a b : String => a ≤ b)
      (List.insertionSort (fun a b => a ≤ b) (f1.map Prod.fst)) :=
    List.sorted_insertionSort _ _
  have hs2 : List.Sorted (fun a b : String => a ≤ b)
      (List.insertionSort (fun a b => a ≤ b) (f2.map Prod.fst)) :=
    List.sorted_insertionSort _ _
  have hp3 : List.Perm
      (List.insertionSort (fun a b => a ≤ b) (f1.map Prod.fst))
      (List.insertionSort (fun a b => a ≤ b) (f2.map Prod.fst)) :=
    ((List.perm_insertionSort _ _).trans hperm).trans
      (List.perm_insertionSort _ _).symm
  have hsorted : List.insertionSort (fun a b => a ≤ b) (f1.map Prod.fst)
      = List.insertionSort (fun a b => a ≤ b) (f2.map Prod.fst) :=
    List.eq_of_perm_of_sorted hp3 hs1 hs2
  have hg : (fun k => (lookup f1 k).map (fun v : JsVal => (k, v)))
      = (fun k => (lookup f2 k).map (fun v : JsVal => (k, v))) :=
    funext fun k => by rw [hl k]
  rw [hsorted, hg]

/-- C3: `getCacheKey`-style serialization is canonical: any two query
records with pairwise-distinct keys that agree on every field whose value
is not `undefined` (whatever the key order, and whether or not fields are
present with an explicit `undefined` value) serialize to the same string;
in particular the keys of `page: 1, q: undefined`, of `page: 1`, and of
the reordered `q: undefined, page: 1` coincide. -/
theorem serializeObject_canonical :
    (∀ (q1 q2 : JsRecord),
      (q1.map Prod.fst).Nodup → (q2.map Prod.fst).Nodup →
      (∀ (k : String) (v : JsVal), v ≠ JsVal.undef →
        (lookup q1 k = some v ↔ lookup q2 k = some v)) →
      serializeObject q1 true = serializeObject q2 true) ∧
    (serializeObject [("page", JsVal.num 1), ("q", JsVal.undef)] true
        = serializeObject [("page", JsVal.num 1)] true ∧
      serializeObject [("q", JsVal.undef), ("page", JsVal.num 1)] true
        = serializeObject [("page", JsVal.num 1)] true) := by
  constructor
  · intro q1 q2 hnd1 hnd2 hagree
    have hk1 : ((q1.filter (fun p => p.2 ≠ JsVal.undef)).map Prod.fst).Nodup :=
      List.Sublist.nodup (List.Sublist.map Prod.fst (List.filter_sublist q1)) hnd1
    have hk2 : ((q2.filter (fun p => p.2 ≠ JsVal.undef)).map Prod.fst).Nodup :=
      List.Sublist.nodup (List.Sublist.map Prod.fst (List.filter_sublist q2)) hnd2
    have hmem : ∀ (k : String) (v : JsVal),
        (k, v) ∈ q1.filter (fun p => p.2 ≠ JsVal.undef)
          ↔ (k, v) ∈ q2.filter (fun p => p.2 ≠ JsVal.undef) := by
      intro k v
      rw [List.mem_filter, List.mem_filter]
      constructor
      · rintro ⟨hin, hv⟩
        have hv2 : v ≠ JsVal.undef := by simpa using hv
        refine ⟨?_, hv⟩
        exact (lookup_eq_some_iff q2 k v hnd2).1
          ((hagree k v hv2).1 ((lookup_eq_some_iff q1 k v hnd1).2 hin))
      · rintro ⟨hin, hv⟩
        have hv2 : v ≠ JsVal.undef := by simpa using hv
        refine ⟨?_, hv⟩
        exact (lookup_eq_some_iff q1 k v hnd1).1
          ((hagree k v hv2).2 ((lookup_eq_some_iff q2 k v hnd2).2 hin))
    have hl : ∀ k, lookup (q1.filter (fun p => p.2 ≠ JsVal.undef)) k
        = lookup (q2.filter (fun p => p.2 ≠ JsVal.undef)) k := by
      intro k
      cases h1 : lookup (q1.filter (fun p => p.2 ≠ JsVal.undef)) k with
      | some v =>
        exact ((lookup_eq_some_iff _ k v hk2).2
          ((hmem k v).1 ((lookup_eq_some_iff _ k v hk1).1 h1))).symm
      | none =>
        cases h2 : lookup (q2.filter (fun p => p.2 ≠ JsVal.undef)) k with
        | none => rfl
        | some w =>
          have := (lookup_eq_some_iff _ k w hk1).2
            ((hmem k w).2 ((lookup_eq_some_iff _ k w hk2).1 h2))
          rw [h1] at this
          exact absurd this (by simp)
    have e1 : serializeObject q1 true
        = serializeRecord
            ((List.insertionSort (fun a b => a ≤ b)
                ((q1.filter (fun p => p.2 ≠ JsVal.undef)).map Prod.fst)).filterMap
              (fun k => (lookup (q1.filter (fun p => p.2 ≠ JsVal.undef)) k).map
                (fun v => (k, v)))) := rfl
    have e2 : serializeObject q2 true
        = serializeRecord
            ((List.insertionSort (fun a b => a ≤ b)
                ((q2.filter (fun p => p.2 ≠ JsVal.undef)).map Prod.fst)).filterMap
              (fun k => (lookup (q2.filter (fun p => p.2 ≠ JsVal.undef)) k).map
                (fun v => (k, v)))) := rfl
    rw [e1, e2]
    exact serializeObject_congr _ _ hk1 hk2 hl
  · exact ⟨by decide, by decide⟩

/-- Witness for C3 at concrete inputs: the empty query agrees (on defined
fields) with the query holding only an explicitly-`undefined` field, and
their keys coincide. -/
theorem serializeObject_canonical_witness :
    serializeObject ([] : JsRecord) true
      = serializeObject [("b", JsVal.undef)] true :=
  serializeObject_canonical.1 [] [("b", JsVal.undef)] (by simp) (by simp)
    (fun k v hv => by
      constructor
      · intro h
        simp [lookup] at h
      · intro h
        rw [lookup_singleton] at h
        by_cases hb : "b" = k
        · rw [if_pos hb] at h
          injection h with h
          exact absurd h.symm hv
        · rw [if_neg hb] at h
          exact Option.noConfusion h)

end SimpleStoreModel
